import Mathlib

/-!
Verification of the strata wiki's Markdown renderer against its
natural-language specification.

The development shallowly embeds the renderer code:
`src/services/markdown_service.rs` (the hand-rolled converter
`MarkdownService`) and `src/render.rs` (slug, front-matter and heading-id
logic).  Strings are modelled as `List Char`; the character classing
functions model the Rust predicates on the ASCII fragment (all claims are
exercised by ASCII inputs).  Each Rust function keeps its name, camel-cased.
-/

namespace Strata

/-! ### Character primitives -/

/-- The apostrophe character (written numerically). -/
def quoteCh : Char := Char.ofNat 39

/-- Whitespace test modelling Rust's whitespace trimming on ASCII. -/
def isWS (c : Char) : Bool :=
  c = ' ' || c = '\t' || c = '\n' || c = '\r'

/-- Rust `char::to_ascii_lowercase`. -/
def asciiToLower (c : Char) : Char :=
  if 'A' ≤ c ∧ c ≤ 'Z' then Char.ofNat (c.toNat + 32) else c

/-- Rust `char::is_ascii_alphanumeric`. -/
def isAsciiAlnum (c : Char) : Bool :=
  ('a' ≤ c && c ≤ 'z') || ('A' ≤ c && c ≤ 'Z') || ('0' ≤ c && c ≤ '9')

/-- Rust `char::is_ascii_digit`. -/
def isAsciiDigit (c : Char) : Bool :=
  '0' ≤ c && c ≤ '9'

/-- Rust `char::is_ascii_whitespace` (space, tab, newline, form feed, CR). -/
def isAsciiWS (c : Char) : Bool :=
  c = ' ' || c = '\t' || c = '\n' || c = Char.ofNat 12 || c = '\r'

/-- Rust `char::is_alphanumeric`, modelled on the ASCII fragment. -/
def isAlnumCh (c : Char) : Bool := isAsciiAlnum c

/-- Rust `str::to_lowercase`, modelled character-wise on the ASCII fragment. -/
def toLowerL (l : List Char) : List Char := l.map asciiToLower

/-! ### List-of-characters primitives -/

/-- Boolean prefix test (Rust `str::starts_with`). -/
def isPre : List Char → List Char → Bool
  | [], _ => true
  | _ :: _, [] => false
  | a :: as', b :: bs => a = b && isPre as' bs

/-- Boolean suffix test (Rust `str::ends_with`). -/
def isSuf (p s : List Char) : Bool := isPre p.reverse s.reverse

/-- Count of elements equal to `x`. -/
def cnt {α : Type} [DecidableEq α] (x : α) : List α → Nat
  | [] => 0
  | y :: ys => (if y = x then 1 else 0) + cnt x ys

/-- Number of positions at which `pat` occurs as a substring (Rust's notion
of counting tag occurrences in a flat string). -/
def occ (pat : List Char) : List Char → Nat
  | [] => 0
  | c :: cs => (if isPre pat (c :: cs) then 1 else 0) + occ pat cs

/-- Rust `str::trim_start` (on the modelled whitespace set). -/
def trimStartL (l : List Char) : List Char := l.dropWhile (fun c => isWS c)

/-- Rust `str::trim_end`. -/
def trimEndL (l : List Char) : List Char :=
  ((l.reverse).dropWhile (fun c => isWS c)).reverse

/-- Rust `str::trim`. -/
def trimL (l : List Char) : List Char := trimEndL (trimStartL l)

/-- Rust `str::trim_matches(c)`: strip the character from both ends. -/
def trimMatchesL (c : Char) (l : List Char) : List Char :=
  (((l.dropWhile (fun x => x = c)).reverse).dropWhile (fun x => x = c)).reverse

/-- Rust `str::split(sep)` for a character separator (keeps empty pieces). -/
def splitOnC (sep : Char) : List Char → List (List Char)
  | [] => [[]]
  | c :: r =>
      let rs := splitOnC sep r
      if c = sep then [] :: rs
      else (c :: rs.headD []) :: rs.tail

/-- Concatenate a list of character lists. -/
def catL : List (List Char) → List Char
  | [] => []
  | l :: ls => l ++ catL ls

/-- Repeat a chunk n times (Rust `str::repeat`). -/
def repeatL (l : List Char) : Nat → List Char
  | 0 => []
  | n + 1 => l ++ repeatL l n

/-- Rust `str::lines`: split on newline, stripping one trailing CR from each
line that was terminated by a newline; no final empty line. -/
def linesAux (acc : List Char) : List Char → List (List Char)
  | [] => [acc.reverse]
  | c :: rest =>
      if c = '\n' then
        stripCR acc.reverse ::
          (match rest with
           | [] => []
           | r => linesAux [] r)
      else linesAux (c :: acc) rest
where
  /-- Strip one trailing carriage return. -/
  stripCR (l : List Char) : List Char :=
    match l.getLast? with
    | some c => if c = '\r' then l.dropLast else l
    | none => l

/-- Rust `str::lines` on a character list. -/
def strLines : List Char → List (List Char)
  | [] => []
  | s => linesAux [] s

/-- Split into lines without CR stripping: the manual byte scan of
`split_front_matter` decomposes its input this way. -/
def rawLinesAux (acc : List Char) : List Char → List (List Char)
  | [] => [acc.reverse]
  | c :: rest =>
      if c = '\n' then
        acc.reverse ::
          (match rest with
           | [] => []
           | r => rawLinesAux [] r)
      else rawLinesAux (c :: acc) rest

/-- Lines of the manual byte scan in `split_front_matter`. -/
def rawLines : List Char → List (List Char)
  | [] => []
  | s => rawLinesAux [] s

/-! ### Decimal rendering of naturals (Rust's `{}` formatting of `usize`) -/

/-- ASCII digit character for a value below ten. -/
def digitCh (n : Nat) : Char := Char.ofNat (48 + n)

/-- Fuel-driven decimal digits accumulator. -/
def decAux : Nat → Nat → List Char
  | 0, _ => []
  | fuel + 1, n =>
      if n < 10 then [digitCh n]
      else decAux fuel (n / 10) ++ [digitCh (n % 10)]

/-- Decimal rendering of a natural number. -/
def natDec (n : Nat) : List Char := decAux (n + 1) n

/-- Numeric value of a digit string (left fold), inverse of `natDec`. -/
def decVal (l : List Char) : Nat :=
  l.foldl (fun a c => 10 * a + (c.toNat - 48)) 0

theorem decVal_foldl (a : Nat) (l : List Char) (c : Char) :
    (l ++ [c]).foldl (fun a c => 10 * a + (c.toNat - 48)) a
      = 10 * (l.foldl (fun a c => 10 * a + (c.toNat - 48)) a) + (c.toNat - 48) := by
  induction l generalizing a with
  | nil => simp
  | cons x xs ih => simp [List.foldl_cons, ih]

theorem decVal_append_digit (l : List Char) (c : Char) :
    decVal (l ++ [c]) = 10 * decVal l + (c.toNat - 48) := by
  simp [decVal, decVal_foldl 0 l c]

theorem digitCh_toNat {n : Nat} (h : n < 10) : (digitCh n).toNat = 48 + n := by
  interval_cases n <;> decide

theorem decAux_val : ∀ fuel n, n < fuel → decVal (decAux fuel n) = n := by
  intro fuel
  induction fuel with
  | zero => intro n h; omega
  | succ f ih =>
      intro n h
      by_cases h10 : n < 10
      · simp [decAux, h10, decVal, digitCh_toNat h10]
      · have hn : 0 < n := by omega
        have hdiv : n / 10 < f := by
          have h1 : n / 10 < n := Nat.div_lt_self hn (by omega)
          omega
        simp only [decAux, if_neg h10]
        rw [decVal_append_digit, ih _ hdiv,
            digitCh_toNat (Nat.mod_lt n (by omega))]
        omega

theorem natDec_val (n : Nat) : decVal (natDec n) = n :=
  decAux_val (n + 1) n (Nat.lt_succ_self n)

theorem natDec_inj {m n : Nat} (h : natDec m = natDec n) : m = n := by
  have := congrArg decVal h
  rwa [natDec_val, natDec_val] at this

theorem natDec_ne_nil (n : Nat) : natDec n ≠ [] := by
  unfold natDec decAux
  by_cases h : n < 10 <;> simp [h]

/-! ### HTML escaping (`escape_html` / `escape_attr` in the source)

The Rust functions chain five `str::replace` calls, each with a single-
character pattern.  `replace1` models one such call. -/

/-- The double-quote character (written numerically). -/
def dquoteCh : Char := Char.ofNat 34

/-- Entity text for the ampersand. -/
def entAmp : List Char := ['&', 'a', 'm', 'p', ';']

/-- Entity text for the less-than sign. -/
def entLt : List Char := ['&', 'l', 't', ';']

/-- Entity text for the greater-than sign. -/
def entGt : List Char := ['&', 'g', 't', ';']

/-- Entity text for the double quote. -/
def entQuot : List Char := ['&', 'q', 'u', 'o', 't', ';']

/-- Entity text for the apostrophe. -/
def ent39 : List Char := ['&', '#', '3', '9', ';']

/-- Rust `str::replace` for a one-character pattern. -/
def replace1 (p : Char) (rep : List Char) : List Char → List Char
  | [] => []
  | c :: cs => (if c = p then rep else [c]) ++ replace1 p rep cs

/-- Source `escape_html`: `&`, `<`, `>`, `"`, `'` replaced in that order. -/
def escapeHtmlL (l : List Char) : List Char :=
  replace1 quoteCh ent39
    (replace1 dquoteCh entQuot
      (replace1 '>' entGt
        (replace1 '<' entLt
          (replace1 '&' entAmp l))))

/-- Source `escape_attr` (same replacement chain as `escape_html`). -/
def escapeAttrL (l : List Char) : List Char := escapeHtmlL l

/-- Per-character view of the escaping chain. -/
def escChar (c : Char) : List Char :=
  if c = '&' then entAmp
  else if c = '<' then entLt
  else if c = '>' then entGt
  else if c = dquoteCh then entQuot
  else if c = quoteCh then ent39
  else [c]

theorem replace1_append (p : Char) (rep a b : List Char) :
    replace1 p rep (a ++ b) = replace1 p rep a ++ replace1 p rep b := by
  induction a with
  | nil => simp [replace1]
  | cons c cs ih => simp [replace1, ih]

theorem escapeHtmlL_cons (c : Char) (l : List Char) :
    escapeHtmlL (c :: l) = escChar c ++ escapeHtmlL l := by
  show escapeHtmlL ([c] ++ l) = _
  simp only [escapeHtmlL, replace1_append]
  congr 1
  by_cases h1 : c = '&'
  · subst h1; decide
  by_cases h2 : c = '<'
  · subst h2; decide
  by_cases h3 : c = '>'
  · subst h3; decide
  by_cases h4 : c = dquoteCh
  · subst h4; decide
  by_cases h5 : c = quoteCh
  · subst h5; decide
  simp [replace1, escChar, h1, h2, h3, h4, h5]

theorem escapeHtmlL_eq_flatMap (l : List Char) :
    escapeHtmlL l = l.flatMap escChar := by
  induction l with
  | nil => decide
  | cons c cs ih => simp [escapeHtmlL_cons, ih]

theorem escChar_no_special (c x : Char) (hx : x ∈ escChar c) :
    x ≠ '<' ∧ x ≠ '>' ∧ x ≠ dquoteCh ∧ x ≠ quoteCh := by
  unfold escChar at hx
  by_cases h1 : c = '&'
  · rw [if_pos h1] at hx
    simp [entAmp] at hx
    rcases hx with h | h | h | h | h <;> subst h <;> decide
  rw [if_neg h1] at hx
  by_cases h2 : c = '<'
  · rw [if_pos h2] at hx
    simp [entLt] at hx
    rcases hx with h | h | h | h <;> subst h <;> decide
  rw [if_neg h2] at hx
  by_cases h3 : c = '>'
  · rw [if_pos h3] at hx
    simp [entGt] at hx
    rcases hx with h | h | h | h <;> subst h <;> decide
  rw [if_neg h3] at hx
  by_cases h4 : c = dquoteCh
  · rw [if_pos h4] at hx
    simp [entQuot] at hx
    rcases hx with h | h | h | h | h | h <;> subst h <;> decide
  rw [if_neg h4] at hx
  by_cases h5 : c = quoteCh
  · rw [if_pos h5] at hx
    simp [ent39] at hx
    rcases hx with h | h | h | h | h <;> subst h <;> decide
  rw [if_neg h5] at hx
  simp only [List.mem_singleton] at hx
  subst hx
  exact ⟨h2, h3, h4, h5⟩

theorem escapeHtmlL_no_lt (l : List Char) : '<' ∉ escapeHtmlL l := by
  rw [escapeHtmlL_eq_flatMap]
  intro hmem
  rcases List.mem_flatMap.mp hmem with ⟨c, _, hc⟩
  exact ((escChar_no_special c '<' hc).1) rfl

/-- Split at the first occurrence of a character: returns the part before it
and the part after it (Rust `split_once` and the index scans of the inline
passes). -/
def findSplit (t : Char) : List Char → Option (List Char × List Char)
  | [] => none
  | c :: r =>
      if c = t then some ([], r)
      else
        match findSplit t r with
        | some (a, b) => some (c :: a, b)
        | none => none

/-! ### `render.rs`: `slugify` and heading-id assignment -/

/-- The state-machine loop of `slugify` (`last_dash` flag and accumulator). -/
def slugifyGo (lastDash : Bool) (out : List Char) : List Char → List Char
  | [] => out
  | ch :: rest =>
      let c := asciiToLower ch
      if isAsciiAlnum c then slugifyGo false (out ++ [c]) rest
      else if isAsciiWS c || c = '-' || c = '_' then
        if lastDash = false ∧ out ≠ [] then slugifyGo true (out ++ ['-']) rest
        else slugifyGo lastDash out rest
      else slugifyGo lastDash out rest

/-- Source `slugify` in `render.rs`: ASCII-lowercase, keep alphanumerics,
collapse whitespace, dash and underscore to a single dash, drop everything
else, and pop one trailing dash. -/
def slugify (text : List Char) : List Char :=
  let out := slugifyGo false [] text
  if out.getLast? = some '-' then out.dropLast else out

/-- Base id of a heading: the slug, or `h{level}` when the slug is empty
(`render_markdown_with_toc`, first pass). -/
def headingBase (lvl : Nat) (text : List Char) : List Char :=
  let s := slugify text
  if s = [] then 'h' :: natDec lvl else s

/-- Suffixed id given the number of earlier occurrences of the base
(`if *count > 0 { id = format!("{}-{}", id, *count); }`). -/
def mkId (b : List Char) (n : Nat) : List Char :=
  if n > 0 then b ++ '-' :: natDec n else b

/-- The id-assignment loop of `render_markdown_with_toc`, with the
`id_counts` hash map modelled as a function from base to count. -/
def assignGo (counts : List Char → Nat) : List (List Char) → List (List Char)
  | [] => []
  | b :: bs =>
      let n := counts b
      mkId b n :: assignGo (fun x => if x = b then n + 1 else counts x) bs

/-- Ids assigned to a list of base slugs, in order, starting from an empty
count map. -/
def assignIds (bases : List (List Char)) : List (List Char) :=
  assignGo (fun _ => 0) bases

/-- First pass of `render_markdown_with_toc` over the headings the external
Markdown parser reports: `(level, id, text)` triples in document order. -/
def collectGo (counts : List Char → Nat) :
    List (Nat × List Char) → List (Nat × List Char × List Char)
  | [] => []
  | (lvl, text) :: rest =>
      let b := headingBase lvl text
      let n := counts b
      (lvl, mkId b n, text) :: collectGo (fun x => if x = b then n + 1 else counts x) rest

/-- Heading list of `render_markdown_with_toc`. -/
def collectHeadings (hs : List (Nat × List Char)) :
    List (Nat × List Char × List Char) :=
  collectGo (fun _ => 0) hs

/-- Source `first_heading_text`: first level-1 heading with nonempty text. -/
def firstHeadingText : List (Nat × List Char × List Char) → Option (List Char)
  | [] => none
  | (lvl, _, text) :: rest =>
      if lvl = 1 ∧ trimL text ≠ [] then some text else firstHeadingText rest

/-- Page title of `render_markdown_with_toc`:
`front_title.or_else(|| first_heading_text(&headings))`. -/
def pageTitle (frontTitle : Option (List Char))
    (hs : List (Nat × List Char × List Char)) : Option (List Char) :=
  match frontTitle with
  | some t => some t
  | none => firstHeadingText hs

/-! ### `render.rs`: `split_front_matter` -/

/-- Title update for one front-matter line (`split_once(':')`, key compared
case-insensitively with `title`, value trimmed, one matching pair of quotes
stripped).  The slice `&val[1..len-1]` panics in Rust when `val` is a single
quote character; this collapsed variant returns the empty value there and is
referenced only on inputs that never reach the scan (claim C10's domain);
`updTitleP` below models the panic explicitly. -/
def updTitle (title : Option (List Char)) (line : List Char) : Option (List Char) :=
  match findSplit ':' line with
  | some (k, v) =>
      if toLowerL (trimL k) = ['t', 'i', 't', 'l', 'e'] then
        let val := trimL v
        let val2 :=
          if (isPre [dquoteCh] val ∧ isSuf [dquoteCh] val)
              ∨ (isPre [quoteCh] val ∧ isSuf [quoteCh] val)
          then (val.drop 1).dropLast else val
        if val2 ≠ [] then some val2 else title
      else title
  | none => title

/-- The byte scan of `split_front_matter` after the opening delimiter:
line by line, stop at a line whose trim is `---` and return the
accumulated title and the remaining body.  Returns `none` when the input
runs out with no closing line.  This collapsed variant smooths over the
two Rust panic paths (see `fmScanP`) and is referenced only on inputs that
never enter the scan (claim C10's domain). -/
def fmScan : Nat → List Char → Option (List Char) →
    Option (Option (List Char) × List Char)
  | 0, _, _ => none
  | _ + 1, [], _ => none
  | fuel + 1, c :: cs, title =>
      let line := (c :: cs).takeWhile (fun x => x ≠ '\n')
      let rest := (c :: cs).dropWhile (fun x => x ≠ '\n')
      if trimL line = ['-', '-', '-'] then some (title, rest.drop 1)
      else fmScan fuel (rest.drop 1) (updTitle title line)

/-- Source `split_front_matter`: front matter is entered only when the raw
input starts with `---` followed by a newline; with no closing line the
whole input is the body and no title is produced.  This version is used
only where the scan is provably never entered; `splitFrontMatterP` models
the scan's panic paths explicitly. -/
def splitFrontMatter (raw : List Char) : Option (List Char) × List Char :=
  if isPre ['-', '-', '-', '\n'] raw then
    match fmScan raw.length (raw.drop 4) none with
    | some r => r
    | none => (none, raw)
  else (none, raw)

/-- Does the title parsing of `split_front_matter` panic on this line?
True exactly when the line has a `title` key whose trimmed value is a
single quote character: then the value is quoted on both ends with length
one, and the Rust slice `&val[1..val.len()-1]` evaluates `&val[1..0]`,
which panics. -/
def fmPanicLine (line : List Char) : Bool :=
  match findSplit ':' line with
  | some (k, v) =>
      if toLowerL (trimL k) = ['t', 'i', 't', 'l', 'e'] then
        decide (trimL v = [dquoteCh] ∨ trimL v = [quoteCh])
      else false
  | none => false

/-- Title update for one front-matter line with the Rust panic explicit:
`none` models the `&val[1..0]` slice panic (quoted value of length one);
otherwise `some` of the new title state, exactly as the source computes
it. -/
def updTitleP (title : Option (List Char)) (line : List Char) :
    Option (Option (List Char)) :=
  match findSplit ':' line with
  | some (k, v) =>
      if toLowerL (trimL k) = ['t', 'i', 't', 'l', 'e'] then
        if (isPre [dquoteCh] (trimL v) ∧ isSuf [dquoteCh] (trimL v))
            ∨ (isPre [quoteCh] (trimL v) ∧ isSuf [quoteCh] (trimL v)) then
          if (trimL v).length = 1 then none
          else if ((trimL v).drop 1).dropLast ≠ [] then
            some (some (((trimL v).drop 1).dropLast))
          else some title
        else if trimL v ≠ [] then some (some (trimL v))
        else some title
      else some title
  | none => some title

/-- Outcome of the `split_front_matter` byte scan with panics explicit. -/
inductive FmScanOut where
  | found : Option (List Char) → List Char → FmScanOut
  | ranOut : FmScanOut
  | panicked : FmScanOut
deriving DecidableEq

/-- The byte scan of `split_front_matter` with both Rust panic paths made
explicit: the `&val[1..0]` slice panic while parsing a title value, and
the `&raw[idx+1..]` slice panic when the closing `---` line is the final
line and carries no terminating newline (`idx` is then the input length). -/
def fmScanP : Nat → List Char → Option (List Char) → FmScanOut
  | 0, _, _ => .ranOut
  | _ + 1, [], _ => .ranOut
  | fuel + 1, c :: cs, title =>
      let line := (c :: cs).takeWhile (fun x => x ≠ '\n')
      let rest := (c :: cs).dropWhile (fun x => x ≠ '\n')
      if trimL line = ['-', '-', '-'] then
        match rest with
        | [] => .panicked
        | _ :: r => .found title r
      else
        match updTitleP title line with
        | some title2 => fmScanP fuel (rest.drop 1) title2
        | none => .panicked

/-- `split_front_matter` with panics explicit: `none` models a panic, and
`some` the returned pair. -/
def splitFrontMatterP (raw : List Char) : Option (Option (List Char) × List Char) :=
  if isPre ['-', '-', '-', '\n'] raw then
    match fmScanP raw.length (raw.drop 4) none with
    | .found t body => some (t, body)
    | .ranOut => some (none, raw)
    | .panicked => none
  else some (none, raw)

/-! ### `markdown_service.rs`: shared pieces -/

/-- The backtick character (written numerically). -/
def btickCh : Char := Char.ofNat 96

/-- Rust `str::trim_start_matches(pat)`: repeatedly strip the prefix. -/
def stripPrefixRep (pat : List Char) : Nat → List Char → List Char
  | 0, s => s
  | fuel + 1, s =>
      if isPre pat s then stripPrefixRep pat fuel (s.drop pat.length) else s

/-- Repeated prefix stripping with sufficient fuel. -/
def stripPrefixAll (pat s : List Char) : List Char :=
  stripPrefixRep pat s.length s

/-- Error type of the wiki (`WikiError`); payloads are irrelevant to the
renderer claims and are dropped. -/
inductive WikiError where
  | io : WikiError
  | notFound : WikiError
  | invalidPath : WikiError
  | templateError : WikiError
  | searchError : WikiError
  | navigationError : WikiError
  | renderError : WikiError
deriving DecidableEq

/-- Heading anchor of `basic_markdown_to_html` / `generate_toc`: lowercase,
map every character that is not alphanumeric and not a space to a dash,
then replace spaces by dashes. -/
def mdAnchor (text : List Char) : List Char :=
  replace1 ' ' ['-']
    ((toLowerL text).map (fun c => if isAlnumCh c || c = ' ' then c else '-'))

/-! ### `markdown_service.rs`: `extract_title` -/

/-- Value of a `title:` line in `extract_title`:
`trim_start_matches("title:").trim().trim_matches(quote).trim_matches(apos)`. -/
def extractVal (line : List Char) : List Char :=
  trimMatchesL quoteCh
    (trimMatchesL dquoteCh
      (trimL (stripPrefixAll ['t', 'i', 't', 'l', 'e', ':'] line)))

/-- The front-matter loop of `extract_title`: return the first nonempty
`title:` value; stop at a line that starts with `---` but is not equal to
the document's first line. -/
def fmTitleLoop (first : List Char) : List (List Char) → Option (List Char)
  | [] => none
  | l :: rest =>
      if isPre ['t', 'i', 't', 'l', 'e', ':'] l ∧ extractVal l ≠ [] then
        some (extractVal l)
      else if isPre ['-', '-', '-'] l ∧ l ≠ first then none
      else fmTitleLoop first rest

/-- The heading fallback of `extract_title`: first line starting with `#`
(any level) whose text after stripping `#`s and trimming is nonempty. -/
def firstHashTitle : List (List Char) → Option (List Char)
  | [] => none
  | l :: rest =>
      if isPre ['#'] l then
        let t := trimL (l.dropWhile (fun c => c = '#'))
        if t ≠ [] then some t else firstHashTitle rest
      else firstHashTitle rest

/-- Source `MarkdownService::extract_title`. -/
def extractTitleL (content : List Char) : Option (List Char) :=
  let ls := strLines content
  let fm :=
    if isPre ['-', '-', '-'] content then fmTitleLoop (ls.headD []) ls else none
  match fm with
  | some t => some t
  | none => firstHashTitle ls

/-! ### `markdown_service.rs`: inline-span passes -/

/-- Source `process_images`: `![alt](url)` to an `img` tag; on any failure
emit the current character literally and continue. -/
def processImages : Nat → List Char → List Char
  | 0, s => s
  | _ + 1, [] => []
  | fuel + 1, s@(c :: cs) =>
      match s with
      | '!' :: '[' :: rest =>
          (match findSplit ']' rest with
           | some (alt, after) =>
               (match after with
                | '(' :: rest2 =>
                    (match findSplit ')' rest2 with
                     | some (url, after2) =>
                         "<img src=\"".data ++ escapeAttrL url
                           ++ "\" alt=\"".data ++ escapeAttrL alt
                           ++ "\">".data ++ processImages fuel after2
                     | none => '!' :: processImages fuel ('[' :: rest))
                | _ => '!' :: processImages fuel ('[' :: rest))
           | none => '!' :: processImages fuel ('[' :: rest))
      | _ => c :: processImages fuel cs

/-- Source `process_links`: `[text](url)` to an anchor tag; internal links
ending in `.md` are stripped of the suffix. -/
def processLinks : Nat → List Char → List Char
  | 0, s => s
  | _ + 1, [] => []
  | fuel + 1, c :: cs =>
      if c = '[' then
        match findSplit ']' cs with
        | some (txt, after) =>
            (match after with
             | '(' :: rest2 =>
                 (match findSplit ')' rest2 with
                  | some (url, after2) =>
                      let url2 :=
                        if isSuf ['.', 'm', 'd'] url ∧ ¬ isPre ['h', 't', 't', 'p'] url
                        then url.dropLast.dropLast.dropLast else url
                      "<a href=\"".data ++ escapeAttrL url2 ++ "\">".data
                        ++ escapeHtmlL txt ++ "</a>".data
                        ++ processLinks fuel after2
                  | none => '[' :: processLinks fuel cs)
             | _ => '[' :: processLinks fuel cs)
        | none => '[' :: processLinks fuel cs
      else c :: processLinks fuel cs

/-- Source `process_inline_code`: a backtick pair with content that is not
whitespace-only becomes a `code` tag; otherwise the backtick is literal. -/
def processInlineCode : Nat → List Char → List Char
  | 0, s => s
  | _ + 1, [] => []
  | fuel + 1, c :: cs =>
      if c = btickCh then
        match findSplit btickCh cs with
        | some (code, after) =>
            if trimL code ≠ [] then
              "<code>".data ++ escapeHtmlL code ++ "</code>".data
                ++ processInlineCode fuel after
            else c :: processInlineCode fuel cs
        | none => c :: processInlineCode fuel cs
      else c :: processInlineCode fuel cs

/-- Closing-marker scan of `replace_emphasis`: find the first closing
position whose enclosed content is not whitespace-only. -/
def emphGo (marker : List Char) (acc : List Char) : List Char → Option (List Char × List Char)
  | [] => none
  | c :: rest =>
      if isPre marker (c :: rest) ∧ trimL acc.reverse ≠ [] then
        some (acc.reverse, (c :: rest).drop marker.length)
      else emphGo marker (c :: acc) rest

/-- Source `replace_emphasis`: well-formed marker pairs with non-blank
content become tags; an unmatched opening emits one literal character. -/
def replaceEmphasis (marker openT closeT : List Char) : Nat → List Char → List Char
  | 0, s => s
  | _ + 1, [] => []
  | fuel + 1, c :: cs =>
      if isPre marker (c :: cs) then
        match emphGo marker [] ((c :: cs).drop marker.length) with
        | some (content, after) =>
            openT ++ content ++ closeT ++ replaceEmphasis marker openT closeT fuel after
        | none => c :: replaceEmphasis marker openT closeT fuel cs
      else c :: replaceEmphasis marker openT closeT fuel cs

/-- Source `process_inline_markdown`: the fixed-order pass pipeline. -/
def processInlineMarkdown (text : List Char) : List Char :=
  let r1 := processImages text.length text
  let r2 := processLinks r1.length r1
  let r3 := processInlineCode r2.length r2
  let r4 := replaceEmphasis ['~', '~'] "<del>".data "</del>".data r3.length r3
  let r5 := replaceEmphasis ['*', '*', '*'] "<strong><em>".data "</em></strong>".data r4.length r4
  let r6 := replaceEmphasis ['*', '*'] "<strong>".data "</strong>".data r5.length r5
  replaceEmphasis ['*'] "<em>".data "</em>".data r6.length r6

/-! ### `markdown_service.rs`: `render_table` -/

/-- Middle cells of a table row: split on `|`, skip the first piece, take
`len - 2` pieces (Rust `skip(1).take(len.saturating_sub(2))`). -/
def tableCellsMid (line : List Char) : List (List Char) :=
  let cells := splitOnC '|' line
  (cells.drop 1).take (cells.length - 2)

/-- Header cells: empty-content cells are skipped entirely. -/
def renderHeaderCells (cells : List (List Char)) : List Char :=
  catL (cells.map (fun cell =>
    let c := trimL cell
    if c ≠ [] then "<th>".data ++ escapeHtmlL c ++ "</th>\n".data else []))

/-- One body cell: empty content renders as an empty `td`. -/
def renderDataCell (cell : List Char) : List Char :=
  let c := trimL cell
  if c ≠ [] then "<td>".data ++ escapeHtmlL c ++ "</td>\n".data
  else "<td></td>\n".data

/-- One body row of `render_table`. -/
def renderDataRow (line : List Char) : List Char :=
  "<tr>\n".data ++ catL ((tableCellsMid line).map renderDataCell) ++ "</tr>\n".data

/-- Source `render_table`, reindexed to the line suffix that starts at the
table's header row: header from the first line, separator line skipped,
body rows while lines keep containing `|`. -/
def renderTableL (suffix : List (List Char)) : List Char :=
  "<table>\n<thead>\n<tr>\n".data
    ++ (match suffix with
        | [] => []
        | header :: _ => renderHeaderCells (tableCellsMid header))
    ++ "</tr>\n</thead>\n<tbody>\n".data
    ++ catL (((suffix.drop 2).takeWhile (fun l => '|' ∈ l)).map renderDataRow)
    ++ "</tbody>\n</table>\n".data

/-- `render_table` returns `Result`; the source always reaches `Ok`. -/
def renderTable (suffix : List (List Char)) : Except WikiError (List Char) :=
  .ok (renderTableL suffix)

/-! ### `markdown_service.rs`: `generate_toc` -/

/-- Item collection loop of `generate_toc`: `(level, text, anchor)` of every
heading outside code fences, levels above six skipped. -/
def tocItems : List (List Char) → Bool → List (Nat × List Char × List Char)
  | [], _ => []
  | l :: rest, inCode =>
      if isPre [btickCh, btickCh, btickCh] l then tocItems rest (!inCode)
      else if inCode then tocItems rest inCode
      else if isPre ['#'] l then
        let level := (l.takeWhile (fun c => c = '#')).length
        if level ≤ 6 then
          let text := trimL (l.dropWhile (fun c => c = '#'))
          if text ≠ [] then (level, text, mdAnchor text) :: tocItems rest inCode
          else tocItems rest inCode
        else tocItems rest inCode
      else tocItems rest inCode

/-- Source `generate_toc`: flat `ul` with two-space indent per level. -/
def generateTocL (content : List Char) : List Char :=
  let items := tocItems (strLines content) false
  if items = [] then []
  else
    "<ul class=\"toc\">\n".data
      ++ catL (items.map (fun it =>
          repeatL "  ".data (it.1 - 1) ++ "<li><a href=\"#".data ++ it.2.2
            ++ "\">".data ++ escapeHtmlL it.2.1 ++ "</a></li>\n".data))
      ++ "</ul>\n".data

/-- `generate_toc` returns `Result`; the source always reaches `Ok`. -/
def generateToc (content : List Char) : Except WikiError (List Char) :=
  .ok (generateTocL content)

/-! ### `markdown_service.rs`: the block-level line scan -/

/-- List kind of a stack frame. -/
inductive ListKind where
  | unordered : ListKind
  | ordered : ListKind
deriving DecidableEq

/-- A frame of the nested-list stack (`ListFrame` in the source); the head
of the list models the top of the Rust `Vec`. -/
structure ListFrame where
  kind : ListKind
  indentLevel : Nat
deriving DecidableEq

/-- Opening tag fragment of a list level. -/
def openFrag : ListKind → List Char
  | .unordered => "<ul>\n".data
  | .ordered => "<ol>\n".data

/-- Closing tag fragment of a list level. -/
def closeFrag : ListKind → List Char
  | .unordered => "</ul>\n".data
  | .ordered => "</ol>\n".data

/-- The `ul` opening fragment. -/
def tagUlO : List Char := "<ul>\n".data

/-- The `ul` closing fragment. -/
def tagUlC : List Char := "</ul>\n".data

/-- The `ol` opening fragment. -/
def tagOlO : List Char := "<ol>\n".data

/-- The `ol` closing fragment. -/
def tagOlC : List Char := "</ol>\n".data

/-- Source `close_list_levels`: pop and close `n` levels (popping an empty
stack is a no-op). -/
def closeN (stack : List ListFrame) : Nat → List (List Char) × List ListFrame
  | 0 => ([], stack)
  | n + 1 =>
      match stack with
      | [] => ([], [])
      | f :: rest =>
          let p := closeN rest n
          (closeFrag f.kind :: p.1, p.2)

/-- Source `open_list` iterated until the target depth is reached; each
frame records the stack length at the moment it was pushed. -/
def openN (kind : ListKind) (stack : List ListFrame) : Nat → List (List Char) × List ListFrame
  | 0 => ([], stack)
  | n + 1 =>
      let st' : List ListFrame := ⟨kind, stack.length⟩ :: stack
      let p := openN kind st' n
      (openFrag kind :: p.1, p.2)

/-- Leading-indent scan: count tabs and spaces, return the rest of the
line (tabs count one unit, every four spaces one unit). -/
def indentCount (tabs spaces : Nat) : List Char → Nat × Nat × List Char
  | [] => (tabs, spaces, [])
  | c :: rest =>
      if c = '\t' then indentCount (tabs + 1) spaces rest
      else if c = ' ' then indentCount tabs (spaces + 1) rest
      else (tabs, spaces, c :: rest)

/-- List-item detection on the line after its indent: `- `, `* `, `+ `
unordered; digits followed by `. ` ordered.  Returns kind and content. -/
def listItemOf (rest : List Char) : Option (ListKind × List Char) :=
  if isPre ['-', ' '] rest ∨ isPre ['*', ' '] rest ∨ isPre ['+', ' '] rest then
    some (.unordered, rest.drop 2)
  else
    let ds := rest.takeWhile (fun c => isAsciiDigit c)
    if ds ≠ [] ∧ isPre ['.', ' '] (rest.drop ds.length) then
      some (.ordered, rest.drop (ds.length + 2))
    else none

/-- Rendered heading line fragment. -/
def headingFrag (level : Nat) (text : List Char) : List Char :=
  "<h".data ++ natDec level ++ " id=\"".data ++ mdAnchor text ++ "\">".data
    ++ processInlineMarkdown text ++ "</h".data ++ natDec level ++ ">\n".data

/-- Opening fragment of a fenced code block. -/
def codeOpenFrag (lang : List Char) : List Char :=
  "<pre><code class=\"language-".data ++ lang ++ "\">".data

/-- Rendered list-item fragment. -/
def liFrag (content : List Char) : List Char :=
  "<li>".data ++ processInlineMarkdown (trimL (trimEndL content)) ++ "</li>\n".data

/-- First stack adjustment of the list-item branch: close the levels above
the target depth. -/
def liClose1 (stack : List ListFrame) (target : Nat) :
    List (List Char) × List ListFrame :=
  if target < stack.length then closeN stack (stack.length - target)
  else ([], stack)

/-- Second stack adjustment: close one level when the top frame sits at the
target depth but has the other list kind. -/
def liClose2 (kind : ListKind) (target : Nat) (st1 : List ListFrame) :
    List (List Char) × List ListFrame :=
  match st1 with
  | top :: _ =>
      if top.indentLevel + 1 = target ∧ top.kind ≠ kind then closeN st1 1
      else ([], st1)
  | [] => ([], st1)

/-- Stack adjustment of the list-item branch: close levels above the
target depth, close one level on an ordered/unordered switch at the same
depth, then open list levels up to the target depth.  Returns the emitted
fragments and the new stack. -/
def liStep (stack : List ListFrame) (kind : ListKind) (indentLevel : Nat) :
    List (List Char) × List ListFrame :=
  let target := indentLevel + 1
  let p1 := liClose1 stack target
  let p2 := liClose2 kind target p1.2
  let p3 := openN kind p2.2 (target - p2.2.length)
  (p1.1 ++ p2.1 ++ p3.1, p3.2)

/-- The line scan of `basic_markdown_to_html`, producing the list of string
fragments pushed onto the output (their concatenation is the html).  Fuel
decreases once per loop iteration; every iteration consumes at least one
line, so the wrapper's fuel never runs out, and exhausted fuel closes the
remaining list levels exactly like the end of input. -/
def mdLoop : Nat → List (List Char) → Bool → List ListFrame →
    Except WikiError (List (List Char))
  | 0, _, _, stack => .ok (closeN stack stack.length).1
  | _ + 1, [], _, stack => .ok (closeN stack stack.length).1
  | fuel + 1, line :: rest, inCode, stack =>
      if isPre ['-', '-', '-'] line then
        mdLoop fuel ((rest.dropWhile (fun l => ¬ isPre ['-', '-', '-'] l)).drop 1)
          inCode stack
      else if isPre [btickCh, btickCh, btickCh] line then
        let p := closeN stack stack.length
        if inCode = false then
          let lang := trimL (stripPrefixAll [btickCh, btickCh, btickCh] line)
          (mdLoop fuel rest true p.2).map (fun out => p.1 ++ (codeOpenFrag lang :: out))
        else
          (mdLoop fuel rest false p.2).map (fun out => p.1 ++ ("</code></pre>\n".data :: out))
      else if inCode then
        (mdLoop fuel rest inCode stack).map (fun out => (escapeHtmlL line ++ ['\n']) :: out)
      else if isPre ['#'] line then
        let p := closeN stack stack.length
        let level := (line.takeWhile (fun c => c = '#')).length
        let text := trimL (line.dropWhile (fun c => c = '#'))
        if text ≠ [] then
          (mdLoop fuel rest inCode p.2).map (fun out => p.1 ++ (headingFrag level text :: out))
        else
          (mdLoop fuel rest inCode p.2).map (fun out => p.1 ++ out)
      else
        let ind := indentCount 0 0 line
        let indentLevel := ind.1 + ind.2.1 / 4
        match listItemOf ind.2.2 with
        | some (kind, content) =>
            let ps := liStep stack kind indentLevel
            (mdLoop fuel rest inCode ps.2).map
              (fun out => ps.1 ++ (liFrag content :: out))
        | none =>
            if cnt '|' line > 1 then
              let p := closeN stack stack.length
              match renderTable (line :: rest) with
              | .ok tableHtml =>
                  (mdLoop fuel ((line :: rest).dropWhile (fun l => '|' ∈ l)) inCode p.2).map
                    (fun out => p.1 ++ (tableHtml :: out))
              | .error e => .error e
            else if trimL line = [] then
              let p := closeN stack stack.length
              (mdLoop fuel rest inCode p.2).map (fun out => p.1 ++ ("<br>\n".data :: out))
            else
              let p := closeN stack stack.length
              let processed := processInlineMarkdown line
              if trimL processed ≠ [] then
                (mdLoop fuel rest inCode p.2).map
                  (fun out => p.1 ++ (("<p>".data ++ processed ++ "</p>\n".data) :: out))
              else
                (mdLoop fuel rest inCode p.2).map (fun out => p.1 ++ out)

/-- Source `basic_markdown_to_html`: run the line scan on the document's
lines and concatenate the emitted fragments. -/
def basicMarkdownToHtml (content : List Char) : Except WikiError (List Char) :=
  match mdLoop (strLines content).length (strLines content) false [] with
  | .ok frags => .ok (catL frags)
  | .error e => .error e

/-- Source `MarkdownResult` (strings as character lists). -/
structure MarkdownResult where
  html : List Char
  toc : List Char
  title : Option (List Char)
deriving DecidableEq

/-- Source `MarkdownService::render_with_toc`: html, toc and title; the
`?` operators propagate errors from the two sub-calls. -/
def renderWithToc (content : List Char) : Except WikiError MarkdownResult :=
  match basicMarkdownToHtml content with
  | .error e => .error e
  | .ok html =>
      match generateToc content with
      | .error e => .error e
      | .ok toc => .ok ⟨html, toc, extractTitleL content⟩

/-! ### Claim-facing comparator definitions

These two definitions are written from the spec's words (not from the
source) and exist only to be compared against the source-derived
definitions above. -/

/-- Modelled from the spec (claim C2): lowercase, map every character that
is not alphanumeric or a space to a dash, replace spaces with dashes, trim
one trailing dash, and fall back to `h{level}` when empty. -/
def claimSlug (level : Nat) (text : List Char) : List Char :=
  let s := replace1 ' ' ['-']
    ((toLowerL text).map (fun c => if isAlnumCh c || c = ' ' then c else '-'))
  let s2 := if s.getLast? = some '-' then s.dropLast else s
  if s2 = [] then 'h' :: natDec level else s2

/-- Modelled from the spec (claim C4), front-matter part: when the document
opens with a front-matter block, the value of its `title:` line. -/
def claimFmTitle (content : List Char) : Option (List Char) :=
  if isPre ['-', '-', '-', '\n'] content then
    ((strLines (content.drop 4)).takeWhile (fun l => trimL l ≠ ['-', '-', '-'])).findSome?
      (fun l =>
        match findSplit ':' l with
        | some (k, v) =>
            if trimL k = ['t', 'i', 't', 'l', 'e'] then some (trimL v) else none
        | none => none)
  else none

/-- Modelled from the spec (claim C4): text of the first level-1 heading. -/
def claimLevel1 (content : List Char) : Option (List Char) :=
  (strLines content).findSome? (fun l =>
    match l with
    | '#' :: rest =>
        if ¬ isPre ['#'] rest ∧ trimL rest ≠ [] then some (trimL rest) else none
    | _ => none)

/-- Modelled from the spec (claim C4): front-matter title wins, else the
first level-1 heading's text, else none. -/
def claimTitle (content : List Char) : Option (List Char) :=
  match claimFmTitle content with
  | some t => some t
  | none => claimLevel1 content

/-! ### Generic counting and prefix lemmas -/

theorem cnt_append {α : Type} [DecidableEq α] (x : α) (a b : List α) :
    cnt x (a ++ b) = cnt x a + cnt x b := by
  induction a with
  | nil => simp [cnt]
  | cons y ys ih => simp [cnt, ih]; omega

theorem cnt_replicate {α : Type} [DecidableEq α] (x y : α) (n : Nat) :
    cnt x (List.replicate n y) = if y = x then n else 0 := by
  induction n with
  | zero => simp [cnt]
  | succ m ih =>
      by_cases h : y = x
      · subst h
        simp [List.replicate, cnt, ih]
        omega
      · simp [List.replicate, cnt, ih, h]

/-! ### Claim C10: no opening delimiter means untouched input -/

/-- Claim C10: for every raw input that does not begin with `---` followed
by a newline, `split_front_matter` returns no title and the input itself,
unchanged, as the body. -/
theorem claim_C10 (raw : List Char)
    (h : isPre ['-', '-', '-', '\n'] raw = false) :
    splitFrontMatter raw = (none, raw) := by
  unfold splitFrontMatter
  simp [h]

/-- Witness for C10 at the concrete input `hello`. -/
theorem claim_C10_witness :
    isPre ['-', '-', '-', '\n'] "hello".data = false ∧
      splitFrontMatter "hello".data = (none, "hello".data) :=
  ⟨by decide, claim_C10 "hello".data (by decide)⟩

/-! ### Claim C7: rendering is a deterministic function of the input -/

/-- Claim C7: `render_with_toc` is a pure function of the input text: equal
inputs give equal `MarkdownResult` values.  (The Rust function reads a
clock and writes log lines, but the returned value depends only on the
content argument, which the embedding reflects.) -/
theorem claim_C7 (c₁ c₂ : List Char) (h : c₁ = c₂) :
    renderWithToc c₁ = renderWithToc c₂ := by
  rw [h]

/-- Witness for C7 at a concrete document. -/
theorem claim_C7_witness :
    renderWithToc "# Hi".data = renderWithToc "# Hi".data :=
  claim_C7 "# Hi".data "# Hi".data rfl

/-! ### Claim C9: escaped text contains no raw HTML-special characters -/

/-- Claim C9: for every input, `escape_html` output contains no raw `<`,
`>`, double quote or apostrophe; ampersands are escaped first, so the
entity texts themselves survive the later replacements. -/
theorem claim_C9 (l : List Char) :
    '<' ∉ escapeHtmlL l ∧ '>' ∉ escapeHtmlL l ∧
      dquoteCh ∉ escapeHtmlL l ∧ quoteCh ∉ escapeHtmlL l := by
  rw [escapeHtmlL_eq_flatMap]
  refine ⟨?_, ?_, ?_, ?_⟩ <;> intro hmem <;>
    rcases List.mem_flatMap.mp hmem with ⟨c, _, hc⟩
  · exact (escChar_no_special c '<' hc).1 rfl
  · exact (escChar_no_special c '>' hc).2.1 rfl
  · exact (escChar_no_special c dquoteCh hc).2.2.1 rfl
  · exact (escChar_no_special c quoteCh hc).2.2.2 rfl

/-! ### Claim C2: the heading slug algorithm -/

theorem replace1_single (p r : Char) (l : List Char) :
    replace1 p [r] l = l.map (fun c => if c = p then r else c) := by
  induction l with
  | nil => rfl
  | cons c cs ih => by_cases h : c = p <;> simp [replace1, h, ih]

/-- Counterexample to C2: for the heading text `a!` the claimed formula
trims the trailing dash and yields `a`, but the source anchor is `a-`. -/
theorem claim_C2_cex : mdAnchor "a!".data ≠ claimSlug 1 "a!".data := by
  decide

/-- Claim C2 as amended: the anchor of `basic_markdown_to_html` and of
`generate_toc` equals lowercasing the heading text and mapping every
non-alphanumeric character (spaces included) to a dash; no trailing-dash
trim and no `h{level}` fallback are applied. -/
theorem claim_C2_amended (text : List Char) :
    mdAnchor text = (toLowerL text).map (fun c => if isAlnumCh c then c else '-') := by
  unfold mdAnchor
  rw [replace1_single, List.map_map]
  have hfun : ∀ c : Char,
      ((fun c => if c = ' ' then '-' else c) ∘
        fun c => if isAlnumCh c || c = ' ' then c else '-') c
        = (fun c => if isAlnumCh c then c else '-') c := by
    intro c
    by_cases ha : isAlnumCh c
    · have hs : c ≠ ' ' := by
        intro h
        rw [h] at ha
        exact absurd ha (by decide)
      simp [Function.comp, ha, hs]
    · by_cases hs : c = ' '
      · subst hs
        have h0 : isAlnumCh ' ' = false := by decide
        simp [Function.comp, h0]
      · simp [Function.comp, ha, hs]
  rw [funext hfun]

/-! ### Claim C1: uniqueness of heading ids -/

theorem assignGo_getD :
    ∀ (bs : List (List Char)) (counts : List Char → Nat) (i : Nat), i < bs.length →
      (assignGo counts bs).getD i []
        = mkId (bs.getD i []) (counts (bs.getD i []) + cnt (bs.getD i []) (bs.take i)) := by
  intro bs
  induction bs with
  | nil => intro counts i h; simp at h
  | cons b rest ih =>
      intro counts i h
      match i with
      | 0 => simp [assignGo, cnt]
      | i + 1 =>
          have hi : i < rest.length := by
            simp only [List.length_cons] at h
            omega
          simp only [assignGo, List.getD_cons_succ, List.take_succ_cons]
          rw [ih _ i hi]
          congr 1
          by_cases hb : rest.getD i [] = b
          · rw [hb]
            simp [cnt]
            omega
          · have hb' : ¬ b = rest.getD i [] := fun hx => hb hx.symm
            simp only [cnt, if_neg hb, if_neg hb']
            omega

theorem mkId_inj {b : List Char} {m n : Nat} (h : m ≠ n) : mkId b m ≠ mkId b n := by
  intro heq
  unfold mkId at heq
  rcases Nat.eq_zero_or_pos m with hm | hm
  · subst hm
    have hn : 0 < n := by omega
    rw [if_neg (by omega), if_pos hn] at heq
    have hlen := congrArg List.length heq
    simp [List.length_append] at hlen
  · rcases Nat.eq_zero_or_pos n with hn | hn
    · subst hn
      rw [if_pos hm, if_neg (by omega)] at heq
      have hlen := congrArg List.length heq
      simp [List.length_append] at hlen
    · rw [if_pos hm, if_pos hn] at heq
      have h2 := List.append_cancel_left heq
      have h3 : natDec m = natDec n := by
        injection h2
      exact h (natDec_inj h3)

theorem cnt_take_le {α : Type} [DecidableEq α] (x : α) (l : List α) {i j : Nat}
    (h : i ≤ j) : cnt x (l.take i) ≤ cnt x (l.take j) := by
  have hsplit : l.take j = l.take i ++ (l.drop i).take (j - i) := by
    have := List.take_add l i (j - i)
    rwa [Nat.add_sub_cancel' h] at this
  rw [hsplit, cnt_append]
  omega

/-- Counterexample to C1: heading texts `a`, `a 1`, `a` slugify to the bases
`a`, `a-1`, `a`; the assignment produces ids `a`, `a-1`, `a-1`, so two
headings of the collected list share an id. -/
theorem claim_C1_cex :
    (collectHeadings [(1, ['a']), (1, ['a', ' ', '1']), (1, ['a'])]).map (fun h => h.2.1)
        = [['a'], ['a', '-', '1'], ['a', '-', '1']] ∧
      ¬ ((collectHeadings [(1, ['a']), (1, ['a', ' ', '1']), (1, ['a'])]).map
          (fun h => h.2.1)).Nodup := by
  constructor
  · decide
  · decide

/-- Claim C1 as amended: the suffix is counted per distinct base slug, so
any two headings whose computed base slugs are equal receive distinct ids;
uniqueness across different base slugs is not guaranteed (see the
counterexample, where a base slug collides with an already-assigned
suffixed id). -/
theorem claim_C1_amended (bases : List (List Char)) (i j : Nat)
    (hij : i < j) (hj : j < bases.length)
    (hbase : bases.getD i [] = bases.getD j []) :
    (assignIds bases).getD i [] ≠ (assignIds bases).getD j [] := by
  have hi : i < bases.length := Nat.lt_trans hij hj
  unfold assignIds
  rw [assignGo_getD bases _ i hi, assignGo_getD bases _ j hj, hbase]
  apply mkId_inj
  have hstep : cnt (bases.getD j []) (bases.take (i + 1))
      = cnt (bases.getD j []) (bases.take i) + 1 := by
    rw [List.take_succ, List.getElem?_eq_getElem hi]
    have hbi : bases[i] = bases.getD j [] := by
      rw [← List.getD_eq_getElem bases [] hi, hbase]
    simp [cnt_append, hbi, cnt]
  have hmono : cnt (bases.getD j []) (bases.take (i + 1))
      ≤ cnt (bases.getD j []) (bases.take j) := cnt_take_le _ bases (by omega)
  omega

/-- Witness for C1 (amended) at the concrete base list `[x, x]`. -/
theorem claim_C1_witness :
    ((0 : Nat) < 1 ∧ 1 < ([['x'], ['x']] : List (List Char)).length ∧
        ([['x'], ['x']] : List (List Char)).getD 0 [] = [['x'], ['x']].getD 1 []) ∧
      (assignIds [['x'], ['x']]).getD 0 [] ≠ (assignIds [['x'], ['x']]).getD 1 [] :=
  ⟨⟨by decide, by decide, by decide⟩,
    claim_C1_amended [['x'], ['x']] 0 1 (by decide) (by decide) (by decide)⟩

/-! ### Claim C3: rendering never fails -/

theorem exceptMap_ok {α β : Type} {e : Except WikiError α} {g : α → β}
    (h : ∃ a, e = .ok a) : ∃ b, e.map g = .ok b := by
  obtain ⟨a, ha⟩ := h
  exact ⟨g a, by rw [ha]; rfl⟩

theorem mdLoop_nil (fuel : Nat) (inCode : Bool) (stack : List ListFrame) :
    mdLoop fuel [] inCode stack = .ok (closeN stack stack.length).1 := by
  cases fuel <;> rfl

theorem mdLoop_ok :
    ∀ fuel lines inCode stack, ∃ fs, mdLoop fuel lines inCode stack = .ok fs := by
  intro fuel
  induction fuel with
  | zero => intro lines inCode stack; exact ⟨_, rfl⟩
  | succ f ih =>
      intro lines inCode stack
      match lines with
      | [] => exact ⟨_, rfl⟩
      | line :: rest =>
          simp only [mdLoop, renderTable]
          repeat' split
          all_goals first
            | exact ih _ _ _
            | exact exceptMap_ok (ih _ _ _)

/-- Claim C3: for every input, `render_with_toc` returns `Ok` with a
result; there is no error return for syntax issues. -/
theorem claim_C3 (content : List Char) : ∃ r, renderWithToc content = .ok r := by
  obtain ⟨fs, hfs⟩ := mdLoop_ok (strLines content).length (strLines content) false []
  unfold renderWithToc basicMarkdownToHtml
  rw [hfs]
  exact ⟨_, rfl⟩

/-! ### Claim C4: title derivation -/

theorem isPre_head {a : Char} {p l : List Char} (h : isPre (a :: p) l = true) :
    ∃ t, l = a :: t := by
  match l with
  | [] => simp [isPre] at h
  | b :: bs =>
      simp [isPre] at h
      exact ⟨bs, by rw [h.1]⟩

/-- The break condition of the `extract_title` front-matter loop. -/
def fmBreak (first l : List Char) : Bool :=
  isPre ['-', '-', '-'] l && l ≠ first

/-- Title probe of one front-matter line in `extract_title`. -/
def titleProbe (l : List Char) : Option (List Char) :=
  if isPre ['t', 'i', 't', 'l', 'e', ':'] l ∧ extractVal l ≠ [] then
    some (extractVal l)
  else none

theorem fmTitleLoop_eq (first : List Char) (ls : List (List Char)) :
    fmTitleLoop first ls
      = (ls.takeWhile (fun l => ! fmBreak first l)).findSome? titleProbe := by
  induction ls with
  | nil => rfl
  | cons l rest ih =>
      by_cases h1 : isPre ['t', 'i', 't', 'l', 'e', ':'] l ∧ extractVal l ≠ []
      · have hnb : fmBreak first l = false := by
          unfold fmBreak
          obtain ⟨t2, ht2⟩ := isPre_head h1.1
          subst ht2
          simp [isPre]
        simp [fmTitleLoop, h1, hnb, titleProbe, List.findSome?_cons]
      · by_cases h2 : isPre ['-', '-', '-'] l ∧ l ≠ first
        · have hb : fmBreak first l = true := by
            unfold fmBreak
            simp [h2.1, h2.2]
          simp [fmTitleLoop, h1, h2, hb]
        · have hnb : fmBreak first l = false := by
            unfold fmBreak
            rcases Decidable.not_and_iff_or_not.mp h2 with h | h
            · simp [Bool.eq_false_iff.mpr h]
            · simp at h
              simp [h]
          simp [fmTitleLoop, h1, h2, hnb, titleProbe, List.findSome?_cons, ih]

/-- Heading probe of one line in the `extract_title` fallback loop. -/
def hashProbe (l : List Char) : Option (List Char) :=
  if isPre ['#'] l ∧ trimL (l.dropWhile (fun c => c = '#')) ≠ [] then
    some (trimL (l.dropWhile (fun c => c = '#')))
  else none

theorem firstHashTitle_eq (ls : List (List Char)) :
    firstHashTitle ls = ls.findSome? hashProbe := by
  induction ls with
  | nil => rfl
  | cons l rest ih =>
      by_cases h1 : isPre ['#'] l = true
      · by_cases h2 : trimL (l.dropWhile (fun c => c = '#')) ≠ []
        · simp [firstHashTitle, h1, h2, hashProbe, List.findSome?_cons]
        · simp [firstHashTitle, h1, h2, hashProbe, List.findSome?_cons, ih]
      · simp [firstHashTitle, h1, hashProbe, List.findSome?_cons, ih]

/-- Counterexample to C4: the document `## Sub` has no front matter and no
level-1 heading, so the claim derives no title; the source's
`extract_title` falls back to the first heading of any level and returns
`Sub`. -/
theorem claim_C4_cex :
    extractTitleL "## Sub".data = some "Sub".data ∧
      extractTitleL "## Sub".data ≠ claimTitle "## Sub".data := by
  constructor
  · decide
  · decide

/-- Claim C4 as amended: `extract_title` returns the first nonempty
`title:` value found among the lines before the break line of its
front-matter scan (entered only when the document starts with `---`);
otherwise the trimmed text of the first line starting with `#`, of any
level, not only level 1; otherwise none.  In the `render.rs` pipeline the
fallback is instead the first level-1 heading with nonempty trimmed text,
as `first_heading_text` selects. -/
theorem claim_C4_amended :
    (∀ content : List Char,
        extractTitleL content
          = Option.orElse
              (if isPre ['-', '-', '-'] content then
                 ((strLines content).takeWhile
                    (fun l => ! fmBreak ((strLines content).headD []) l)).findSome?
                   titleProbe
               else none)
              (fun _ => (strLines content).findSome? hashProbe)) ∧
      (∀ hs : List (Nat × List Char × List Char),
        firstHeadingText hs
          = (hs.find? (fun h => decide (h.1 = 1 ∧ trimL h.2.2 ≠ []))).map
              (fun h => h.2.2)) := by
  constructor
  · intro content
    unfold extractTitleL
    rw [← fmTitleLoop_eq, ← firstHashTitle_eq]
    by_cases h : isPre ['-', '-', '-'] content = true
    · simp only [h, if_true]
      cases hfm : fmTitleLoop ((strLines content).headD []) (strLines content) <;>
        simp [Option.orElse]
    · simp only [h, if_false]
      simp [Option.orElse]
  · intro hs
    induction hs with
    | nil => rfl
    | cons h rest ih =>
        obtain ⟨lvl, idt, text⟩ := h
        by_cases hc : lvl = 1 ∧ trimL text ≠ []
        · rw [List.find?_cons_of_pos _ (by simp [hc.1, hc.2])]
          simp [firstHeadingText, hc]
        · rw [List.find?_cons_of_neg _ (by simpa using hc)]
          simp only [firstHeadingText]
          rw [if_neg (by exact fun hx => hc ⟨hx.1, hx.2⟩)]
          exact ih

/-! ### Claim C5: unclosed front matter -/

theorem rawLinesAux_eq (acc s : List Char) :
    rawLinesAux acc s
      = (acc.reverse ++ s.takeWhile (fun x => x ≠ '\n'))
        :: (match s.dropWhile (fun x => x ≠ '\n') with
            | [] => []
            | _ :: r => rawLines r) := by
  induction s generalizing acc with
  | nil => simp [rawLinesAux]
  | cons c s' ih =>
      cases s' with
      | nil =>
          by_cases h : c = '\n' <;>
            simp [rawLinesAux, rawLines, h, List.takeWhile_cons, List.dropWhile_cons]
      | cons d r =>
          by_cases h : c = '\n'
          · subst h
            rw [rawLinesAux]
            · simp [rawLines]
            · simp
          · rw [rawLinesAux]
            · rw [if_neg h, ih (c :: acc)]
              simp [List.takeWhile_cons, List.dropWhile_cons, h]
            · simp

theorem isPre_singleton {a : Char} {l : List Char}
    (h : isPre [a] l = true) (hl : l.length = 1) : l = [a] := by
  match l with
  | [] => simp at hl
  | b :: bs =>
      simp only [List.length_cons] at hl
      have hbs : bs = [] := List.eq_nil_of_length_eq_zero (by omega)
      subst hbs
      simp [isPre] at h
      rw [h]

theorem updTitleP_some (title : Option (List Char)) (line : List Char)
    (h : fmPanicLine line = false) : ∃ t2, updTitleP title line = some t2 := by
  unfold updTitleP
  unfold fmPanicLine at h
  cases hfs : findSplit ':' line with
  | none =>
      exact ⟨title, rfl⟩
  | some kv =>
      obtain ⟨k, v⟩ := kv
      rw [hfs] at h
      dsimp only at h ⊢
      by_cases hk : toLowerL (trimL k) = ['t', 'i', 't', 'l', 'e']
      · rw [if_pos hk] at h ⊢
        simp only [decide_eq_false_iff_not] at h
        by_cases hq : (isPre [dquoteCh] (trimL v) ∧ isSuf [dquoteCh] (trimL v))
            ∨ (isPre [quoteCh] (trimL v) ∧ isSuf [quoteCh] (trimL v))
        · rw [if_pos hq]
          by_cases hlen : (trimL v).length = 1
          · exfalso
            apply h
            rcases hq with ⟨hp, _⟩ | ⟨hp, _⟩
            · exact Or.inl (isPre_singleton hp hlen)
            · exact Or.inr (isPre_singleton hp hlen)
          · rw [if_neg hlen]
            by_cases hv : ((trimL v).drop 1).dropLast ≠ []
            · rw [if_pos hv]
              exact ⟨_, rfl⟩
            · rw [if_neg hv]
              exact ⟨title, rfl⟩
        · rw [if_neg hq]
          by_cases hv : trimL v ≠ []
          · rw [if_pos hv]
            exact ⟨_, rfl⟩
          · rw [if_neg hv]
            exact ⟨title, rfl⟩
      · rw [if_neg hk]
        exact ⟨title, rfl⟩

theorem fmScanP_ranOut :
    ∀ fuel cs title,
      (∀ l ∈ rawLines cs, trimL l ≠ ['-', '-', '-']) →
      (∀ l ∈ rawLines cs, fmPanicLine l = false) →
      fmScanP fuel cs title = .ranOut := by
  intro fuel
  induction fuel with
  | zero => intro cs title _ _; rfl
  | succ f ih =>
      intro cs title h hp
      match cs with
      | [] => rfl
      | c :: cs' =>
          have hlines : rawLines (c :: cs')
              = ((c :: cs').takeWhile (fun x => x ≠ '\n'))
                :: (match (c :: cs').dropWhile (fun x => x ≠ '\n') with
                    | [] => []
                    | _ :: r => rawLines r) := by
            show rawLinesAux [] (c :: cs') = _
            rw [rawLinesAux_eq]
            simp
          have hne : trimL ((c :: cs').takeWhile (fun x => x ≠ '\n')) ≠ ['-', '-', '-'] := by
            apply h
            rw [hlines]
            exact List.mem_cons_self _ _
          have hpl : fmPanicLine ((c :: cs').takeWhile (fun x => x ≠ '\n')) = false := by
            apply hp
            rw [hlines]
            exact List.mem_cons_self _ _
          obtain ⟨t2, ht2⟩ := updTitleP_some title _ hpl
          simp only [fmScanP]
          rw [if_neg hne, ht2]
          apply ih
          · cases hrest : (c :: cs').dropWhile (fun x => x ≠ '\n') with
            | nil =>
                intro l hl
                simp [rawLines] at hl
            | cons d r =>
                intro l hl
                apply h
                rw [hlines, hrest]
                simp only [List.drop_succ_cons, List.drop_zero] at hl
                exact List.mem_cons_of_mem _ hl
          · cases hrest : (c :: cs').dropWhile (fun x => x ≠ '\n') with
            | nil =>
                intro l hl
                simp [rawLines] at hl
            | cons d r =>
                intro l hl
                apply hp
                rw [hlines, hrest]
                simp only [List.drop_succ_cons, List.drop_zero] at hl
                exact List.mem_cons_of_mem _ hl

/-- Counterexample to C5: with the unclosed front matter `---\nfoo`,
`basic_markdown_to_html` discards every line and produces empty html,
while the same body line `foo` renders as a paragraph on its own. -/
theorem claim_C5_cex :
    basicMarkdownToHtml "---\nfoo".data = .ok [] ∧
      basicMarkdownToHtml "foo".data = .ok "<p>foo</p>\n".data := by
  constructor
  · rfl
  · rfl

/-- Claim C5 as amended: with an opening `---` line, no closing line, and
no scanned line whose quoted `title` value is a single quote character (on
such a line the program panics at the `&val[1..0]` slice before
returning), `split_front_matter` (render.rs) treats the whole input as the
body, with no title and the input unchanged; but `basic_markdown_to_html`
(markdown_service) discards every line from the opening delimiter onward,
rendering empty html. -/
theorem claim_C5_amended :
    (∀ raw : List Char,
        isPre ['-', '-', '-', '\n'] raw = true →
        (∀ l ∈ rawLines (raw.drop 4), trimL l ≠ ['-', '-', '-']) →
        (∀ l ∈ rawLines (raw.drop 4), fmPanicLine l = false) →
        splitFrontMatterP raw = some (none, raw)) ∧
      (∀ content : List Char,
        strLines content ≠ [] →
        isPre ['-', '-', '-'] ((strLines content).headD []) = true →
        (∀ l ∈ (strLines content).tail, isPre ['-', '-', '-'] l = false) →
        basicMarkdownToHtml content = .ok []) := by
  constructor
  · intro raw h1 h2 h3
    unfold splitFrontMatterP
    rw [if_pos h1, fmScanP_ranOut raw.length (raw.drop 4) none h2 h3]
  · intro content h3 h4 h5
    unfold basicMarkdownToHtml
    obtain ⟨l0, rest, hls⟩ : ∃ l0 rest, strLines content = l0 :: rest := by
      cases hx : strLines content with
      | nil => exact absurd hx h3
      | cons a b => exact ⟨a, b, rfl⟩
    rw [hls] at h4 h5 ⊢
    simp only [List.headD_cons] at h4
    simp only [List.tail_cons] at h5
    simp only [List.length_cons, mdLoop]
    rw [if_pos h4]
    have hdw : rest.dropWhile (fun l => ¬ isPre ['-', '-', '-'] l) = [] := by
      rw [List.dropWhile_eq_nil_iff]
      intro x hx
      simp [h5 x hx]
    rw [hdw]
    simp [mdLoop_nil, closeN, catL]

/-- Witness for C5 (amended) at the concrete input `---\nfoo`. -/
theorem claim_C5_witness :
    (isPre ['-', '-', '-', '\n'] "---\nfoo".data = true ∧
        splitFrontMatterP "---\nfoo".data = some (none, "---\nfoo".data)) ∧
      (strLines "---\nfoo".data ≠ [] ∧
        basicMarkdownToHtml "---\nfoo".data = .ok []) :=
  ⟨⟨by decide, claim_C5_amended.1 _ (by decide) (by decide) (by decide)⟩,
    ⟨by decide, claim_C5_amended.2 _ (by decide) (by decide) (by decide)⟩⟩

/-! ### Substring-occurrence lemmas -/

theorem isPre_le_length {p l : List Char} (h : isPre p l = true) :
    p.length ≤ l.length := by
  induction p generalizing l with
  | nil => simp
  | cons a ps ih =>
      match l with
      | [] => simp [isPre] at h
      | b :: bs =>
          simp only [isPre, Bool.and_eq_true] at h
          simp only [List.length_cons]
          exact Nat.succ_le_succ (ih h.2)

theorem isPre_append_of_le {p l : List Char} (b : List Char)
    (h : p.length ≤ l.length) : isPre p (l ++ b) = isPre p l := by
  induction p generalizing l with
  | nil => simp [isPre]
  | cons a ps ih =>
      match l with
      | [] => simp at h
      | c :: cs =>
          simp only [List.cons_append, isPre, List.append_eq]
          rw [ih (by simpa using h)]

theorem isPre_mem_of_longer {p l b : List Char}
    (h : isPre p (l ++ b) = true) (hl : l.length ≤ p.length) :
    ∀ x ∈ l, x ∈ p := by
  induction l generalizing p with
  | nil => intro x hx; simp at hx
  | cons c cs ih =>
      intro x hx
      match p with
      | [] => simp at hl
      | q :: qs =>
          simp only [List.cons_append, isPre, Bool.and_eq_true] at h
          rcases List.mem_cons.mp hx with hxc | hxcs
          · subst hxc
            have : q = x := by
              have := h.1
              simpa using this
            rw [← this]
            exact List.mem_cons_self _ _
          · exact List.mem_cons_of_mem _ (ih h.2 (by simpa using hl) x hxcs)

theorem getLast?_mem' {α : Type} {l : List α} {a : α}
    (h : l.getLast? = some a) : a ∈ l := by
  induction l with
  | nil => simp at h
  | cons c rest ih =>
      cases rest with
      | nil =>
          simp at h
          simp [h]
      | cons d r =>
          rw [List.getLast?_cons_cons] at h
          exact List.mem_cons_of_mem _ (ih h)

theorem occ_cons_ne {a c : Char} {ps cs : List Char} (h : a ≠ c) :
    occ (a :: ps) (c :: cs) = occ (a :: ps) cs := by
  have : isPre (a :: ps) (c :: cs) = false := by
    simp [isPre, h]
  simp [occ, this]

theorem occ_skip {a : Char} {ps x t : List Char} (h : a ∉ x) :
    occ (a :: ps) (x ++ t) = occ (a :: ps) t := by
  induction x with
  | nil => simp
  | cons c cs ih =>
      have hac : a ≠ c := fun hx => h (hx ▸ List.mem_cons_self _ _)
      rw [List.cons_append, occ_cons_ne hac]
      exact ih (fun hx => h (List.mem_cons_of_mem _ hx))

theorem occ_append_nl (pat a b : List Char) (hne : pat ≠ [])
    (hnl : '\n' ∉ pat) (ha : a = [] ∨ a.getLast? = some '\n') :
    occ pat (a ++ b) = occ pat a + occ pat b := by
  induction a with
  | nil => simp [occ]
  | cons c a' ih =>
      rcases ha with hnil | hlast
      · simp at hnil
      match a' with
      | [] =>
          have hc : c = '\n' := by
            simp at hlast
            exact hlast
          subst hc
          have hfalse : ∀ t : List Char, isPre pat ('\n' :: t) = false := by
            intro t
            match pat with
            | [] => exact absurd rfl hne
            | q :: qs =>
                by_cases hq : q = '\n'
                · exact absurd (hq ▸ List.mem_cons_self _ _) hnl
                · simp [isPre, hq]
          simp [occ, hfalse]
      | d :: a'' =>
          rw [List.getLast?_cons_cons] at hlast
          have ih' := ih (Or.inr hlast)
          rw [List.cons_append, occ, occ, ih']
          have hpre : isPre pat ((c :: d :: a'') ++ b) = isPre pat (c :: d :: a'') := by
            by_cases hlen : pat.length ≤ (c :: d :: a'').length
            · exact isPre_append_of_le b hlen
            · have h1 : isPre pat (c :: d :: a'') = false := by
                by_cases hx : isPre pat (c :: d :: a'') = true
                · exact absurd (isPre_le_length hx) hlen
                · simpa using hx
              have h2 : isPre pat ((c :: d :: a'') ++ b) = false := by
                by_cases hx : isPre pat ((c :: d :: a'') ++ b) = true
                · have hmem := isPre_mem_of_longer hx (by omega)
                  have : '\n' ∈ (c :: d :: a'') := getLast?_mem' hlast
                  · exact absurd (hmem '\n' (List.mem_cons_of_mem _ (getLast?_mem' hlast))) hnl
                · simpa using hx
              rw [h1, h2]
          rw [List.cons_append] at hpre
          rw [hpre]
          omega

/-! ### Claim C6: table body cells -/

theorem occ_td_cell (cell : List Char) :
    occ ['<', 't', 'd'] (renderDataCell cell) = 1 := by
  unfold renderDataCell
  by_cases h : trimL cell ≠ []
  · rw [if_pos h]
    show occ ['<', 't', 'd']
        ('<' :: 't' :: 'd' :: '>' :: (escapeHtmlL (trimL cell) ++ "</td>\n".data)) = 1
    rw [occ]
    rw [if_pos (by simp [isPre])]
    rw [occ_cons_ne (by decide), occ_cons_ne (by decide), occ_cons_ne (by decide),
        occ_skip (escapeHtmlL_no_lt _)]
    decide
  · rw [if_neg h]
    decide

theorem cellFrag_last (cell : List Char) :
    (renderDataCell cell).getLast? = some '\n' := by
  unfold renderDataCell
  by_cases h : trimL cell ≠ []
  · rw [if_pos h]
    show (("<td>".data ++ escapeHtmlL (trimL cell)) ++ "</td>\n".data).getLast? = some '\n'
    rw [List.getLast?_append_of_ne_nil _ (by decide)]
    decide
  · rw [if_neg h]
    decide

theorem occ_td_cat (cells : List (List Char)) :
    occ ['<', 't', 'd'] (catL (cells.map renderDataCell) ++ "</tr>\n".data)
      = cells.length := by
  induction cells with
  | nil => decide
  | cons cell rest ih =>
      simp only [List.map_cons, catL]
      rw [List.append_assoc,
          occ_append_nl _ _ _ (by decide) (by decide) (Or.inr (cellFrag_last cell)),
          occ_td_cell, ih]
      simp only [List.length_cons]
      omega

set_option maxRecDepth 10000 in
/-- Counterexample to C6: a table whose header row has 3 cells and whose
single data row has 2 cells renders a body `tr` with only 2 `td` cells —
no empty third cell is added.  The whole table contains exactly 2 `<td`
occurrences while the header has 3 middle cells. -/
theorem claim_C6_cex :
    occ ['<', 't', 'd']
        (renderTableL ["| a | b | c |".data, "|---|---|---|".data, "| x | y |".data]) = 2 ∧
      (tableCellsMid "| a | b | c |".data).length = 3 := by
  constructor
  · decide
  · decide

/-- Claim C6 as amended: a body row of `render_table` renders exactly one
`td` element per cell present in that row (the middle pieces of its `|`
split); cells whose own content is empty render as empty `td`, but cells
missing relative to the header are not padded. -/
theorem claim_C6_amended (line : List Char) :
    occ ['<', 't', 'd'] (renderDataRow line) = (tableCellsMid line).length := by
  unfold renderDataRow
  show occ ['<', 't', 'd']
      ('<' :: 't' :: 'r' :: '>' :: '\n'
        :: (catL ((tableCellsMid line).map renderDataCell) ++ "</tr>\n".data))
      = (tableCellsMid line).length
  rw [occ]
  rw [if_neg (by simp [isPre])]
  rw [occ_cons_ne (by decide), occ_cons_ne (by decide), occ_cons_ne (by decide),
      occ_cons_ne (by decide)]
  rw [occ_td_cat]
  omega

/-! ### Claim C8: list tags balance -/

/-- Number of frames of a given kind on the list stack. -/
def kCnt (k : ListKind) : List ListFrame → Nat
  | [] => 0
  | f :: rest => (if f.kind = k then 1 else 0) + kCnt k rest

theorem closeN_spec : ∀ (n : Nat) (st : List ListFrame),
    closeN st n = ((st.take n).map (fun f => closeFrag f.kind), st.drop n) := by
  intro n
  induction n with
  | zero => intro st; simp [closeN]
  | succ m ih =>
      intro st
      match st with
      | [] => simp [closeN]
      | f :: rest => simp [closeN, ih]

theorem cnt_closeFrags (fs : List ListFrame) :
    cnt tagUlC (fs.map (fun f => closeFrag f.kind)) = kCnt .unordered fs ∧
      cnt tagOlC (fs.map (fun f => closeFrag f.kind)) = kCnt .ordered fs ∧
      cnt tagUlO (fs.map (fun f => closeFrag f.kind)) = 0 ∧
      cnt tagOlO (fs.map (fun f => closeFrag f.kind)) = 0 := by
  induction fs with
  | nil => simp [cnt, kCnt]
  | cons f rest ih =>
      obtain ⟨e1, e2, e3, e4⟩ := ih
      obtain ⟨k, i⟩ := f
      cases k
      · have hk : closeFrag (ListFrame.mk ListKind.unordered i).kind = tagUlC := rfl
        simp +decide [List.map_cons, hk, cnt, kCnt, e1, e2, e3, e4]
      · have hk : closeFrag (ListFrame.mk ListKind.ordered i).kind = tagOlC := rfl
        simp +decide [List.map_cons, hk, cnt, kCnt, e1, e2, e3, e4]

theorem openN_frags : ∀ (n : Nat) (k : ListKind) (st : List ListFrame),
    (openN k st n).1 = List.replicate n (openFrag k) := by
  intro n
  induction n with
  | zero => intro k st; simp [openN, List.replicate]
  | succ m ih => intro k st; simp [openN, List.replicate, ih]

theorem openN_kCnt : ∀ (n : Nat) (k k' : ListKind) (st : List ListFrame),
    kCnt k' (openN k st n).2 = kCnt k' st + (if k = k' then n else 0) := by
  intro n
  induction n with
  | zero => intro k k' st; simp [openN]
  | succ m ih =>
      intro k k' st
      show kCnt k' (openN k (⟨k, st.length⟩ :: st) m).2 = _
      rw [ih]
      show kCnt k' (⟨k, st.length⟩ :: st) + _ = _
      simp only [kCnt]
      by_cases h : k = k'
      · simp [h]
        omega
      · simp [h]

theorem kCnt_take_drop (k : ListKind) (st : List ListFrame) (n : Nat) :
    kCnt k (st.take n) + kCnt k (st.drop n) = kCnt k st := by
  have : st.take n ++ st.drop n = st := List.take_append_drop n st
  calc kCnt k (st.take n) + kCnt k (st.drop n)
      = kCnt k (st.take n ++ st.drop n) := by
        clear this
        induction st.take n with
        | nil => simp [kCnt]
        | cons f rest ih => simp [kCnt, ih]; omega
    _ = kCnt k st := by rw [this]

/-- Inversion of `Except.map` returning `ok`. -/
theorem map_ok_inv {α β : Type} {e : Except WikiError α} {g : α → β} {out : β}
    (h : e.map g = .ok out) : ∃ o, e = .ok o ∧ out = g o := by
  cases e with
  | error err => simp [Except.map] at h
  | ok o =>
      refine ⟨o, rfl, ?_⟩
      simp [Except.map] at h
      exact h.symm

/-- Second-position disagreement makes cons lists distinct. -/
theorem cons2_ne {b d : Char} (a : Char) {t1 t2 : List Char} (h : b ≠ d) :
    (a :: b :: t1) ≠ (a :: d :: t2) := by
  intro he
  injection he with _ he1
  injection he1 with hb _
  exact h hb

/-- An escaped code line fragment never starts with `<`. -/
theorem escFrag_ne (l : List Char) (x : Char) (t : List Char) :
    escapeHtmlL l ++ ['\n'] ≠ '<' :: x :: t := by
  intro heq
  cases hesc : escapeHtmlL l with
  | nil =>
      rw [hesc] at heq
      simp at heq
  | cons c cs =>
      rw [hesc, List.cons_append] at heq
      injection heq with hc _
      apply escapeHtmlL_no_lt l
      rw [hesc, hc]
      exact List.mem_cons_self _ _

theorem headingFrag_ne (level : Nat) (text : List Char) {x : Char} {t : List Char}
    (hx : 'h' ≠ x) : headingFrag level text ≠ '<' :: x :: t := by
  unfold headingFrag
  exact cons2_ne '<' hx

theorem liFrag_ne (content : List Char) {x : Char} {t : List Char}
    (hx : 'l' ≠ x) : liFrag content ≠ '<' :: x :: t := by
  unfold liFrag
  exact cons2_ne '<' hx

theorem codeOpenFrag_ne (lang : List Char) {x : Char} {t : List Char}
    (hx : 'p' ≠ x) : codeOpenFrag lang ≠ '<' :: x :: t := by
  unfold codeOpenFrag
  exact cons2_ne '<' hx

theorem tableFrag_ne (suffix : List (List Char)) {x : Char} {t : List Char}
    (hx : 't' ≠ x) : renderTableL suffix ≠ '<' :: x :: t := by
  unfold renderTableL
  exact cons2_ne '<' hx

theorem paraFrag_ne (p : List Char) {x : Char} {t : List Char}
    (hx : 'p' ≠ x) : ("<p>".data ++ p ++ "</p>\n".data) ≠ '<' :: x :: t :=
  cons2_ne '<' hx

theorem closeN_counts (st : List ListFrame) (n : Nat) :
    cnt tagUlC (closeN st n).1 + kCnt .unordered (closeN st n).2
        = kCnt .unordered st ∧
      cnt tagOlC (closeN st n).1 + kCnt .ordered (closeN st n).2
        = kCnt .ordered st ∧
      cnt tagUlO (closeN st n).1 = 0 ∧
      cnt tagOlO (closeN st n).1 = 0 := by
  rw [closeN_spec]
  obtain ⟨e1, e2, e3, e4⟩ := cnt_closeFrags (st.take n)
  exact ⟨by rw [e1]; exact kCnt_take_drop _ st n,
    by rw [e2]; exact kCnt_take_drop _ st n, e3, e4⟩

theorem openN_counts (k : ListKind) (st : List ListFrame) (n : Nat) :
    kCnt .unordered (openN k st n).2
        = kCnt .unordered st + cnt tagUlO (openN k st n).1 ∧
      kCnt .ordered (openN k st n).2
        = kCnt .ordered st + cnt tagOlO (openN k st n).1 ∧
      cnt tagUlC (openN k st n).1 = 0 ∧
      cnt tagOlC (openN k st n).1 = 0 := by
  rw [openN_frags]
  rw [openN_kCnt, openN_kCnt]
  cases k <;> simp +decide [openFrag, cnt_replicate]

theorem closeAll_counts (stack : List ListFrame) :
    cnt tagUlC (closeN stack stack.length).1
        = cnt tagUlO (closeN stack stack.length).1 + kCnt .unordered stack ∧
      cnt tagOlC (closeN stack stack.length).1
        = cnt tagOlO (closeN stack stack.length).1 + kCnt .ordered stack := by
  obtain ⟨e1, e2, e3, e4⟩ := closeN_counts stack stack.length
  have hdrop : (closeN stack stack.length).2 = [] := by
    rw [closeN_spec]
    simp
  rw [hdrop] at e1 e2
  have z1 : kCnt .unordered ([] : List ListFrame) = 0 := rfl
  have z2 : kCnt .ordered ([] : List ListFrame) = 0 := rfl
  rw [z1] at e1
  rw [z2] at e2
  exact ⟨by omega, by omega⟩

theorem liClose1_eq (stack : List ListFrame) (target : Nat) :
    ∃ m, liClose1 stack target = closeN stack m := by
  unfold liClose1
  by_cases hc : target < stack.length
  · exact ⟨stack.length - target, if_pos hc⟩
  · refine ⟨0, ?_⟩
    rw [if_neg hc, closeN_spec]
    simp

theorem liClose2_eq (kind : ListKind) (target : Nat) (st1 : List ListFrame) :
    ∃ m, liClose2 kind target st1 = closeN st1 m := by
  match st1 with
  | [] =>
      refine ⟨0, ?_⟩
      rw [closeN_spec]
      simp [liClose2]
  | top :: rest =>
      by_cases hc : top.indentLevel + 1 = target ∧ top.kind ≠ kind
      · refine ⟨1, ?_⟩
        show (if top.indentLevel + 1 = target ∧ top.kind ≠ kind
              then closeN (top :: rest) 1 else ([], top :: rest)) = closeN (top :: rest) 1
        rw [if_pos hc]
      · refine ⟨0, ?_⟩
        show (if top.indentLevel + 1 = target ∧ top.kind ≠ kind
              then closeN (top :: rest) 1 else ([], top :: rest)) = closeN (top :: rest) 0
        rw [if_neg hc, closeN_spec]
        simp

theorem liStep_counts (stack : List ListFrame) (kind : ListKind) (indentLevel : Nat) :
    cnt tagUlC (liStep stack kind indentLevel).1
          + kCnt .unordered (liStep stack kind indentLevel).2
        = kCnt .unordered stack + cnt tagUlO (liStep stack kind indentLevel).1 ∧
      cnt tagOlC (liStep stack kind indentLevel).1
          + kCnt .ordered (liStep stack kind indentLevel).2
        = kCnt .ordered stack + cnt tagOlO (liStep stack kind indentLevel).1 := by
  unfold liStep
  dsimp only
  obtain ⟨m1, hm1⟩ := liClose1_eq stack (indentLevel + 1)
  rw [hm1]
  obtain ⟨m2, hm2⟩ := liClose2_eq kind (indentLevel + 1) (closeN stack m1).2
  rw [hm2]
  obtain ⟨a1, a2, a3, a4⟩ := closeN_counts stack m1
  obtain ⟨b1, b2, b3, b4⟩ := closeN_counts (closeN stack m1).2 m2
  obtain ⟨c1, c2, c3, c4⟩ :=
    openN_counts kind (closeN (closeN stack m1).2 m2).2
      (indentLevel + 1 - (closeN (closeN stack m1).2 m2).2.length)
  constructor <;> (simp only [cnt_append]; omega)

theorem cnt_cons_ne (x f : List Char) (o : List (List Char)) (h : f ≠ x) :
    cnt x (f :: o) = cnt x o := by
  simp [cnt, h]

/-- Balance of a step that closes every open level and then emits one
non-list fragment. -/
theorem closeAll_frag_balance {stack : List ListFrame} {o : List (List Char)}
    (f : List Char)
    (hf1 : f ≠ tagUlC) (hf2 : f ≠ tagUlO) (hf3 : f ≠ tagOlC) (hf4 : f ≠ tagOlO)
    (i1 : cnt tagUlC o = cnt tagUlO o + kCnt .unordered (closeN stack stack.length).2)
    (i2 : cnt tagOlC o = cnt tagOlO o + kCnt .ordered (closeN stack stack.length).2) :
    cnt tagUlC ((closeN stack stack.length).1 ++ f :: o)
        = cnt tagUlO ((closeN stack stack.length).1 ++ f :: o) + kCnt .unordered stack ∧
      cnt tagOlC ((closeN stack stack.length).1 ++ f :: o)
        = cnt tagOlO ((closeN stack stack.length).1 ++ f :: o) + kCnt .ordered stack := by
  have hdrop : (closeN stack stack.length).2 = [] := by
    rw [closeN_spec]
    simp
  rw [hdrop] at i1 i2
  have z1 : kCnt .unordered ([] : List ListFrame) = 0 := rfl
  have z2 : kCnt .ordered ([] : List ListFrame) = 0 := rfl
  rw [z1] at i1
  rw [z2] at i2
  obtain ⟨a1, a2⟩ := closeAll_counts stack
  simp only [cnt_append]
  rw [cnt_cons_ne tagUlC f o hf1, cnt_cons_ne tagUlO f o hf2,
      cnt_cons_ne tagOlC f o hf3, cnt_cons_ne tagOlO f o hf4]
  exact ⟨by omega, by omega⟩

/-- Balance of a step that closes every open level and emits nothing. -/
theorem closeAll_nofrag_balance {stack : List ListFrame} {o : List (List Char)}
    (i1 : cnt tagUlC o = cnt tagUlO o + kCnt .unordered (closeN stack stack.length).2)
    (i2 : cnt tagOlC o = cnt tagOlO o + kCnt .ordered (closeN stack stack.length).2) :
    cnt tagUlC ((closeN stack stack.length).1 ++ o)
        = cnt tagUlO ((closeN stack stack.length).1 ++ o) + kCnt .unordered stack ∧
      cnt tagOlC ((closeN stack stack.length).1 ++ o)
        = cnt tagOlO ((closeN stack stack.length).1 ++ o) + kCnt .ordered stack := by
  have hdrop : (closeN stack stack.length).2 = [] := by
    rw [closeN_spec]
    simp
  rw [hdrop] at i1 i2
  have z1 : kCnt .unordered ([] : List ListFrame) = 0 := rfl
  have z2 : kCnt .ordered ([] : List ListFrame) = 0 := rfl
  rw [z1] at i1
  rw [z2] at i2
  obtain ⟨a1, a2⟩ := closeAll_counts stack
  simp only [cnt_append]
  exact ⟨by omega, by omega⟩

/-- Balance of a step that leaves the stack alone and emits one non-list
fragment. -/
theorem frag_cons_balance {stack : List ListFrame} {o : List (List Char)}
    (f : List Char)
    (hf1 : f ≠ tagUlC) (hf2 : f ≠ tagUlO) (hf3 : f ≠ tagOlC) (hf4 : f ≠ tagOlO)
    (i1 : cnt tagUlC o = cnt tagUlO o + kCnt .unordered stack)
    (i2 : cnt tagOlC o = cnt tagOlO o + kCnt .ordered stack) :
    cnt tagUlC (f :: o) = cnt tagUlO (f :: o) + kCnt .unordered stack ∧
      cnt tagOlC (f :: o) = cnt tagOlO (f :: o) + kCnt .ordered stack := by
  rw [cnt_cons_ne tagUlC f o hf1, cnt_cons_ne tagUlO f o hf2,
      cnt_cons_ne tagOlC f o hf3, cnt_cons_ne tagOlO f o hf4]
  exact ⟨i1, i2⟩

/-- Balance of the list-item step. -/
theorem liStep_balance {stack : List ListFrame} {o : List (List Char)}
    (kind : ListKind) (indentLevel : Nat) (content : List Char)
    (i1 : cnt tagUlC o = cnt tagUlO o + kCnt .unordered (liStep stack kind indentLevel).2)
    (i2 : cnt tagOlC o = cnt tagOlO o + kCnt .ordered (liStep stack kind indentLevel).2) :
    cnt tagUlC ((liStep stack kind indentLevel).1 ++ liFrag content :: o)
        = cnt tagUlO ((liStep stack kind indentLevel).1 ++ liFrag content :: o)
          + kCnt .unordered stack ∧
      cnt tagOlC ((liStep stack kind indentLevel).1 ++ liFrag content :: o)
        = cnt tagOlO ((liStep stack kind indentLevel).1 ++ liFrag content :: o)
          + kCnt .ordered stack := by
  obtain ⟨s1, s2⟩ := liStep_counts stack kind indentLevel
  simp only [cnt_append]
  rw [cnt_cons_ne tagUlC _ o (liFrag_ne content (by decide)),
      cnt_cons_ne tagUlO _ o (liFrag_ne content (by decide)),
      cnt_cons_ne tagOlC _ o (liFrag_ne content (by decide)),
      cnt_cons_ne tagOlO _ o (liFrag_ne content (by decide))]
  exact ⟨by omega, by omega⟩

/-- Claim C8 as amended: every list level the scan opens is closed again —
among the fragments `basic_markdown_to_html` pushes, `<ul>` openings
balance `</ul>` closings and `<ol>` openings balance `</ol>` closings
(plus one closing per frame still on the entry stack).  The flat html can
nevertheless contain additional `<ul>`/`</ul>` text echoed verbatim from
input lines, which is what the counterexample exhibits. -/
theorem claim_C8_amended :
    ∀ fuel lines inCode stack out,
      mdLoop fuel lines inCode stack = .ok out →
      cnt tagUlC out = cnt tagUlO out + kCnt .unordered stack ∧
        cnt tagOlC out = cnt tagOlO out + kCnt .ordered stack := by
  intro fuel
  induction fuel with
  | zero =>
      intro lines inCode stack out hok
      have hout : out = (closeN stack stack.length).1 := by
        simp only [mdLoop] at hok
        injection hok with h
        exact h.symm
      subst hout
      exact closeAll_counts stack
  | succ f ih =>
      intro lines inCode stack out hok
      match lines with
      | [] =>
          have hout : out = (closeN stack stack.length).1 := by
            rw [mdLoop_nil] at hok
            injection hok with h
            exact h.symm
          subst hout
          exact closeAll_counts stack
      | line :: rest =>
          simp only [mdLoop] at hok
          by_cases h1 : isPre ['-', '-', '-'] line = true
          · rw [if_pos h1] at hok
            exact ih _ _ _ _ hok
          rw [if_neg h1] at hok
          by_cases h2 : isPre [btickCh, btickCh, btickCh] line = true
          · rw [if_pos h2] at hok
            by_cases h3 : inCode = false
            · rw [if_pos h3] at hok
              obtain ⟨o, ho, rfl⟩ := map_ok_inv hok
              obtain ⟨i1, i2⟩ := ih _ _ _ _ ho
              exact closeAll_frag_balance _
                (codeOpenFrag_ne _ (by decide)) (codeOpenFrag_ne _ (by decide))
                (codeOpenFrag_ne _ (by decide)) (codeOpenFrag_ne _ (by decide)) i1 i2
            · rw [if_neg h3] at hok
              obtain ⟨o, ho, rfl⟩ := map_ok_inv hok
              obtain ⟨i1, i2⟩ := ih _ _ _ _ ho
              exact closeAll_frag_balance _
                (by decide) (by decide) (by decide) (by decide) i1 i2
          rw [if_neg h2] at hok
          by_cases h3 : inCode = true
          · rw [if_pos h3] at hok
            obtain ⟨o, ho, rfl⟩ := map_ok_inv hok
            obtain ⟨i1, i2⟩ := ih _ _ _ _ ho
            exact frag_cons_balance _
              (escFrag_ne _ _ _) (escFrag_ne _ _ _) (escFrag_ne _ _ _) (escFrag_ne _ _ _)
              i1 i2
          rw [if_neg h3] at hok
          by_cases h4 : isPre ['#'] line = true
          · rw [if_pos h4] at hok
            by_cases h5 : trimL (line.dropWhile (fun c => c = '#')) ≠ []
            · rw [if_pos h5] at hok
              obtain ⟨o, ho, rfl⟩ := map_ok_inv hok
              obtain ⟨i1, i2⟩ := ih _ _ _ _ ho
              exact closeAll_frag_balance _
                (headingFrag_ne _ _ (by decide)) (headingFrag_ne _ _ (by decide))
                (headingFrag_ne _ _ (by decide)) (headingFrag_ne _ _ (by decide)) i1 i2
            · rw [if_neg h5] at hok
              obtain ⟨o, ho, rfl⟩ := map_ok_inv hok
              obtain ⟨i1, i2⟩ := ih _ _ _ _ ho
              exact closeAll_nofrag_balance i1 i2
          rw [if_neg h4] at hok
          cases hkc : listItemOf (indentCount 0 0 line).2.2 with
          | some kc =>
              obtain ⟨kind, content⟩ := kc
              rw [hkc] at hok
              simp only [] at hok
              obtain ⟨o, ho, rfl⟩ := map_ok_inv hok
              obtain ⟨i1, i2⟩ := ih _ _ _ _ ho
              exact liStep_balance kind _ content i1 i2
          | none =>
              rw [hkc] at hok
              simp only [] at hok
              by_cases h6 : cnt '|' line > 1
              · rw [if_pos h6] at hok
                simp only [renderTable] at hok
                obtain ⟨o, ho, rfl⟩ := map_ok_inv hok
                obtain ⟨i1, i2⟩ := ih _ _ _ _ ho
                exact closeAll_frag_balance _
                  (tableFrag_ne _ (by decide)) (tableFrag_ne _ (by decide))
                  (tableFrag_ne _ (by decide)) (tableFrag_ne _ (by decide)) i1 i2
              rw [if_neg h6] at hok
              by_cases h7 : trimL line = []
              · rw [if_pos h7] at hok
                obtain ⟨o, ho, rfl⟩ := map_ok_inv hok
                obtain ⟨i1, i2⟩ := ih _ _ _ _ ho
                exact closeAll_frag_balance _
                  (by decide) (by decide) (by decide) (by decide) i1 i2
              rw [if_neg h7] at hok
              by_cases h8 : trimL (processInlineMarkdown line) ≠ []
              · rw [if_pos h8] at hok
                obtain ⟨o, ho, rfl⟩ := map_ok_inv hok
                obtain ⟨i1, i2⟩ := ih _ _ _ _ ho
                exact closeAll_frag_balance _
                  (paraFrag_ne _ (by decide)) (paraFrag_ne _ (by decide))
                  (paraFrag_ne _ (by decide)) (paraFrag_ne _ (by decide)) i1 i2
              · rw [if_neg h8] at hok
                obtain ⟨o, ho, rfl⟩ := map_ok_inv hok
                obtain ⟨i1, i2⟩ := ih _ _ _ _ ho
                exact closeAll_nofrag_balance i1 i2

/-- Html of a document, with the (unreachable) error case collapsed. -/
def htmlOf (content : List Char) : List Char :=
  match basicMarkdownToHtml content with
  | .ok h => h
  | .error _ => []

/-- Counterexample to C8: the input line `<ul>` passes through inline
processing verbatim, so the flat html `<p><ul></p>` contains one `<ul>`
occurrence and no `</ul>` occurrence — the flat tag counts are unequal. -/
theorem claim_C8_cex :
    occ "<ul>".data (htmlOf "<ul>".data) = 1 ∧
      occ "</ul>".data (htmlOf "<ul>".data) = 0 := by
  constructor
  · decide
  · decide

/-- Witness for C8 (amended) at a concrete one-item list document. -/
theorem claim_C8_witness :
    mdLoop 1 ["- a".data] false []
        = .ok ["<ul>\n".data, "<li>a</li>\n".data, "</ul>\n".data] ∧
      (cnt tagUlC ["<ul>\n".data, "<li>a</li>\n".data, "</ul>\n".data]
          = cnt tagUlO ["<ul>\n".data, "<li>a</li>\n".data, "</ul>\n".data]
            + kCnt .unordered [] ∧
        cnt tagOlC ["<ul>\n".data, "<li>a</li>\n".data, "</ul>\n".data]
          = cnt tagOlO ["<ul>\n".data, "<li>a</li>\n".data, "</ul>\n".data]
            + kCnt .ordered []) :=
  ⟨by rfl, claim_C8_amended 1 ["- a".data] false [] _ (by rfl)⟩

end Strata
